import Mathlib

/-!
Verification of the deterministic computation core of the confidential
impermanent-loss insurance compute node
(src/eigenlayer-compute/src/main.rs and src/eigenlayer-compute/src/simple_main.rs).

Two embeddings appear below.

* Namespace `SimpleMain` embeds `simple_main.rs` exactly as written: its
  `U256` is a 4-limb (`[u64; 4]`) structure whose arithmetic operates on
  the low limb only and stores zeros into the other three limbs.  Rust
  `u64` addition/multiplication overflow is modelled with wrapping
  (`% 2^64`, the release-profile semantics); every theorem below that
  evaluates this code does so at inputs where no 64-bit overflow occurs,
  so debug (panicking) and release (wrapping) profiles agree there.

* Namespace `ServerImpl` embeds `main.rs`.  The scalar type of `main.rs`
  is `gen::U256` from the generated `gen` module, which is not part of
  the repository sources; per the specification (sections 3 and 4.1) its
  arithmetic is exact over the 256-bit range, and the 64-bit conversion
  `as_u64` is used only where the value is known small.  Those scalars
  are therefore embedded as natural numbers with exact arithmetic
  (Rust's truncating integer division maps to `Nat.div`, Rust's
  `saturating_sub`-style guarded subtraction maps to `Nat.sub`).
-/

namespace SimpleMain

/-- `2^64`, the wrap-around modulus of one `u64` limb. -/
def W64 : ℕ := 2 ^ 64

/-- `pub struct U256(pub [u64; 4])` from simple_main.rs: four 64-bit limbs,
little-endian (`l0` is `self.0[0]`). -/
structure U256 where
  l0 : ℕ
  l1 : ℕ
  l2 : ℕ
  l3 : ℕ
deriving DecidableEq, Repr

/-- `U256::ZERO`. -/
def U256.ZERO : U256 := ⟨0, 0, 0, 0⟩

/-- `U256::from(value: u64)`: stores the value in the low limb. -/
def U256.of (v : ℕ) : U256 := ⟨v, 0, 0, 0⟩

/-- `U256::is_zero`: all four limbs are zero. -/
def U256.is_zero (a : U256) : Bool :=
  a.l0 == 0 && a.l1 == 0 && a.l2 == 0 && a.l3 == 0

/-- `U256::as_u64`: returns the low limb. -/
def U256.as_u64 (a : U256) : ℕ := a.l0

/-- The unsigned 256-bit value a 4-limb word denotes. -/
def U256.toNat (a : U256) : ℕ :=
  a.l0 + a.l1 * 2 ^ 64 + a.l2 * 2 ^ 128 + a.l3 * 2 ^ 192

/-- `impl Add for U256` from simple_main.rs: adds the low limbs only and
zeroes the upper limbs (`U256([self.0[0] + other.0[0], 0, 0, 0])`). -/
def U256.add (a b : U256) : U256 := ⟨(a.l0 + b.l0) % W64, 0, 0, 0⟩

/-- `impl Sub for U256`: `self.0[0].saturating_sub(other.0[0])` on the low
limb (which is exactly truncated subtraction on `ℕ`), upper limbs zeroed. -/
def U256.sub (a b : U256) : U256 := ⟨a.l0 - b.l0, 0, 0, 0⟩

/-- `impl Mul for U256`: multiplies the low limbs only and zeroes the upper
limbs (`U256([self.0[0] * other.0[0], 0, 0, 0])`). -/
def U256.mul (a b : U256) : U256 := ⟨(a.l0 * b.l0) % W64, 0, 0, 0⟩

/-- `impl Div for U256`: returns `U256::ZERO` when the divisor is zero,
otherwise divides the low limbs. -/
def U256.div (a b : U256) : U256 :=
  if b.is_zero then U256.ZERO else ⟨a.l0 / b.l0, 0, 0, 0⟩

/-- `impl PartialOrd for U256` compares the low limbs only; this is its `<`. -/
def U256.lt (a b : U256) : Bool := a.l0 < b.l0

/-- `impl PartialOrd for U256` compares the low limbs only; this is its `<=`. -/
def U256.le (a b : U256) : Bool := a.l0 ≤ b.l0

/-- `pub struct Bytes(pub Vec<u8>)`: an opaque byte string. -/
abbrev Bytes : Type := List ℕ

/-- `Bytes::is_empty`. -/
def Bytes.is_empty (b : Bytes) : Bool := List.isEmpty b

namespace ConfidentialInsuranceCompute

/-- The `while y < x` loop of `ConfidentialInsuranceCompute::isqrt`
(simple_main.rs): `x = y; y = (y + value / y) / 2` while `y < x`, then
return `x`.  Terminates because the low limb of `x` strictly decreases. -/
def isqrtAux (value x y : U256) : U256 :=
  if y.lt x then
    isqrtAux value y ((y.add (value.div y)).div (U256.of 2))
  else x
termination_by x.l0
decreasing_by
  simp_all [U256.lt]

/-- `ConfidentialInsuranceCompute::isqrt` (simple_main.rs lines 342-356). -/
def isqrt (value : U256) : U256 :=
  if value.is_zero then U256.ZERO
  else isqrtAux value value ((value.add (U256.of 1)).div (U256.of 2))

/-- `ConfidentialInsuranceCompute::calculate_impermanent_loss`
(simple_main.rs lines 108-153). -/
def calculate_impermanent_loss (initial_token_a_amount initial_token_b_amount
    current_token_a_price current_token_b_price initial_token_a_price
    initial_token_b_price pool_fee_rate : U256) : U256 × Bool :=
  if initial_token_a_price.is_zero || initial_token_b_price.is_zero then
    (U256.ZERO, false)
  else
    let price_ratio :=
      (current_token_a_price.mul initial_token_b_price).div
        (initial_token_a_price.mul current_token_b_price)
    let initial_value :=
      (initial_token_a_amount.mul initial_token_a_price).add
        (initial_token_b_amount.mul initial_token_b_price)
    let hold_value :=
      (initial_token_a_amount.mul current_token_a_price).add
        (initial_token_b_amount.mul current_token_b_price)
    let sqrt_ratio := isqrt price_ratio
    let lp_multiplier :=
      ((U256.of 2).mul sqrt_ratio).div ((U256.of 1).add price_ratio)
    let lp_value := (initial_value.mul lp_multiplier).div (U256.of 1)
    let fees_earned := (initial_value.mul pool_fee_rate).div (U256.of 10000)
    let total_lp_value := lp_value.add fees_earned
    let impermanent_loss :=
      if total_lp_value.lt hold_value then hold_value.sub total_lp_value
      else U256.ZERO
    (impermanent_loss, U256.ZERO.lt impermanent_loss)

/-- `ConfidentialInsuranceCompute::calculate_payout`
(simple_main.rs lines 155-184). -/
def calculate_payout (policy_id impermanent_loss coverage_amount deductible
    coverage_ratio : U256) : U256 :=
  if impermanent_loss.le deductible then U256.ZERO
  else
    let covered_loss := impermanent_loss.sub deductible
    let payout_before_cap := (covered_loss.mul coverage_ratio).div (U256.of 10000)
    if coverage_amount.lt payout_before_cap then coverage_amount
    else payout_before_cap

/-- The `for i in 1..price_data.len()` deviation scan of
`ConfidentialInsuranceCompute::validate_oracle_prices`, carrying the
previous price; returns the validity flag contribution and the accepted
prices in submission order. -/
def priceScan (deviation_threshold : U256) : U256 → List U256 → Bool × List U256
  | _, [] => (true, [])
  | prev_price, curr_price :: rest =>
    if prev_price.is_zero then
      let r := priceScan deviation_threshold curr_price rest
      (false, r.2)
    else
      let deviation :=
        if prev_price.lt curr_price then
          ((curr_price.sub prev_price).mul (U256.of 10000)).div prev_price
        else
          ((prev_price.sub curr_price).mul (U256.of 10000)).div prev_price
      let r := priceScan deviation_threshold curr_price rest
      if deviation_threshold.lt deviation then (false, r.2)
      else (r.1, curr_price :: r.2)

/-- The `for i in 1..timestamps.len()` strict-increase check of
`validate_oracle_prices` (it breaks at the first violation, which yields the
same flag as scanning every adjacent pair). -/
def timestampsOk : List U256 → Bool
  | a :: b :: rest => if b.le a then false else timestampsOk (b :: rest)
  | _ => true

/-- `ConfidentialInsuranceCompute::validate_oracle_prices`
(simple_main.rs lines 186-234). -/
def validate_oracle_prices (price_data timestamps : List U256)
    (deviation_threshold : U256) : Bool × List U256 :=
  if price_data.length ≠ timestamps.length || price_data.isEmpty then
    (false, [])
  else
    match price_data with
    | [] => (false, [])
    | p :: rest =>
      let r := priceScan deviation_threshold p rest
      (r.1 && timestampsOk timestamps, r.2)

/-- The `for (i, attestation) in attestations.iter().enumerate()` loop of
`ConfidentialInsuranceCompute::aggregate_attestations`, folding the running
`aggregated_value` and `valid_attestations` count over the index-aligned
(value, signature, key) triples.  The `u64` counter cannot wrap because it
is bounded by the list length. -/
def aggScan (acc : U256 × ℕ) : List (U256 × Bytes × Bytes) → U256 × ℕ
  | [] => acc
  | (attestation, signature, key) :: rest =>
    if !attestation.is_zero && !signature.is_empty && !key.is_empty then
      aggScan (acc.1.add attestation, acc.2 + 1) rest
    else
      aggScan acc rest

/-- `ConfidentialInsuranceCompute::aggregate_attestations`
(simple_main.rs lines 236-276). -/
def aggregate_attestations (attestations : List U256)
    (signatures operator_public_keys : List Bytes) (threshold : U256) :
    U256 × Bool :=
  if attestations.length ≠ signatures.length
      || signatures.length ≠ operator_public_keys.length then
    (U256.ZERO, false)
  else if attestations.length < threshold.as_u64 then
    (U256.ZERO, false)
  else
    let r := aggScan (U256.ZERO, 0)
      (attestations.zip (signatures.zip operator_public_keys))
    let meets_threshold := threshold.as_u64 ≤ r.2
    let aggregated_value :=
      if meets_threshold && 0 < r.2 then r.1.div (U256.of r.2) else U256.ZERO
    (aggregated_value, meets_threshold)

end ConfidentialInsuranceCompute

end SimpleMain

namespace ServerImpl

/-- Opaque byte strings (`Bytes`) of the RPC layer, as used by `main.rs`;
only emptiness is ever inspected. -/
abbrev Bytes : Type := List ℕ

/-- Modelled from the spec: the scalar type `gen::U256` of main.rs comes
from the generated `gen` module, which is not among the repository
sources; spec sections 3 and 4.1 make its arithmetic exact over the
256-bit range, so scalars are embedded as `ℕ`.  This is the `while y < x`
loop of the `isqrt` helper (main.rs lines 195-203): `x = y;
y = (y + value / y) / 2` while `y < x`, then return `x`. -/
def isqrtAux (value x y : ℕ) : ℕ :=
  if y < x then isqrtAux value y ((y + value / y) / 2) else x
termination_by x
decreasing_by omega

/-- Modelled from the spec: scalars of the missing `gen` module embedded as
exact naturals.  The `isqrt` helper of main.rs (lines 190-204). -/
def isqrt (value : ℕ) : ℕ :=
  if value = 0 then 0 else isqrtAux value value ((value + 1) / 2)

/-- The `isqrt` loop instrumented with an explicit step budget and an
explicit divisor check: it returns `none` if the budget is exhausted before
the loop reaches `y ≥ x`, or if an iteration would compute `value / y` with
`y = 0`.  Used to express that the loop of `isqrt` terminates and never
divides by zero. -/
def isqrtLoopFuel (value : ℕ) : ℕ → ℕ → ℕ → Option ℕ
  | 0, _, _ => none
  | fuel + 1, x, y =>
    if y < x then
      if y = 0 then none
      else isqrtLoopFuel value fuel y ((y + value / y) / 2)
    else some x

/-- Modelled from the spec: scalars of the missing `gen` module embedded as
exact naturals.  `ServerImpl::calculate_payout` (main.rs lines 87-109). -/
def calculate_payout (policy_id impermanent_loss coverage_amount deductible
    coverage_ratio : ℕ) : ℕ :=
  if impermanent_loss ≤ deductible then 0
  else
    let covered_loss := impermanent_loss - deductible
    let payout_before_cap := covered_loss * coverage_ratio / 10000
    if coverage_amount < payout_before_cap then coverage_amount
    else payout_before_cap

/-- The deviation scan of `ServerImpl::validate_oracle_prices` (the
`for i in 1..price_data.len()` loop), carrying the previous price. -/
def priceScan (deviation_threshold : ℕ) : ℕ → List ℕ → Bool × List ℕ
  | _, [] => (true, [])
  | prev_price, curr_price :: rest =>
    if prev_price == 0 then
      let r := priceScan deviation_threshold curr_price rest
      (false, r.2)
    else
      let deviation :=
        if prev_price < curr_price then
          (curr_price - prev_price) * 10000 / prev_price
        else
          (prev_price - curr_price) * 10000 / prev_price
      let r := priceScan deviation_threshold curr_price rest
      if deviation_threshold < deviation then (false, r.2)
      else (r.1, curr_price :: r.2)

/-- The strict-increase check on timestamps of
`ServerImpl::validate_oracle_prices` (it breaks at the first violation,
which yields the same flag as scanning every adjacent pair). -/
def timestampsOk : List ℕ → Bool
  | a :: b :: rest => if b ≤ a then false else timestampsOk (b :: rest)
  | _ => true

/-- Modelled from the spec: scalars of the missing `gen` module embedded as
exact naturals.  `ServerImpl::validate_oracle_prices` (main.rs lines
112-155). -/
def validate_oracle_prices (price_data timestamps : List ℕ)
    (deviation_threshold : ℕ) : Bool × List ℕ :=
  if price_data.length ≠ timestamps.length || price_data.isEmpty then
    (false, [])
  else
    match price_data with
    | [] => (false, [])
    | p :: rest =>
      let r := priceScan deviation_threshold p rest
      (r.1 && timestampsOk timestamps, r.2)

/-- The aggregation loop of `ServerImpl::aggregate_attestations`, folding
`(aggregated_value, valid_attestations)` over the index-aligned
(value, signature, key) triples. -/
def aggScan (acc : ℕ × ℕ) : List (ℕ × Bytes × Bytes) → ℕ × ℕ
  | [] => acc
  | (attestation, signature, key) :: rest =>
    if !(attestation == 0) && !signature.isEmpty && !key.isEmpty then
      aggScan (acc.1 + attestation, acc.2 + 1) rest
    else
      aggScan acc rest

/-- Modelled from the spec: scalars of the missing `gen` module embedded as
exact naturals; in particular `threshold.as_u64()` is the identity there,
since spec section 4.1 reserves the 64-bit conversion for values known
small.  `ServerImpl::aggregate_attestations` (main.rs lines 11-45). -/
def aggregate_attestations (attestations : List ℕ)
    (signatures operator_public_keys : List Bytes) (threshold : ℕ) :
    ℕ × Bool :=
  if attestations.length ≠ signatures.length
      || signatures.length ≠ operator_public_keys.length then
    (0, false)
  else if attestations.length < threshold then
    (0, false)
  else
    let r := aggScan (0, 0)
      (attestations.zip (signatures.zip operator_public_keys))
    let meets_threshold := threshold ≤ r.2
    let aggregated_value :=
      if meets_threshold && 0 < r.2 then r.1 / r.2 else 0
    (aggregated_value, meets_threshold)

/-- Modelled from the spec: scalars of the missing `gen` module embedded as
exact naturals, and the `keccak256` helper (which calls the external
`sha3` crate, spec section 6's `Hash.digest` capability) abstracted as an
explicit function argument.  `ServerImpl::calculate_impermanent_loss`
(main.rs lines 48-84). -/
def calculate_impermanent_loss (initial_token_a_amount initial_token_b_amount
    current_token_a_price current_token_b_price initial_token_a_price
    initial_token_b_price pool_fee_rate : ℕ) : ℕ × Bool :=
  if initial_token_a_price == 0 || initial_token_b_price == 0 then
    (0, false)
  else
    let price_ratio :=
      current_token_a_price * initial_token_b_price /
        (initial_token_a_price * current_token_b_price)
    let initial_value :=
      initial_token_a_amount * initial_token_a_price +
        initial_token_b_amount * initial_token_b_price
    let hold_value :=
      initial_token_a_amount * current_token_a_price +
        initial_token_b_amount * current_token_b_price
    let sqrt_ratio := isqrt price_ratio
    let lp_multiplier := 2 * sqrt_ratio / (1 + price_ratio)
    let lp_value := initial_value * lp_multiplier / 1
    let fees_earned := initial_value * pool_fee_rate / 10000
    let total_lp_value := lp_value + fees_earned
    let impermanent_loss :=
      if total_lp_value < hold_value then hold_value - total_lp_value else 0
    (impermanent_loss, 0 < impermanent_loss)

/-- Modelled from the spec: the `keccak256` helper delegates to the external
`sha3` crate (spec section 6's `Hash.digest` capability), so the hash is an
explicit function argument here.  `ServerImpl::verify_encrypted_attestation`
(main.rs lines 158-185). -/
def verify_encrypted_attestation (keccak256 : Bytes → ℕ)
    (encrypted_attestation proof : Bytes) (public_inputs : List ℕ) :
    Bool × ℕ :=
  if encrypted_attestation.isEmpty || proof.isEmpty then (false, 0)
  else
    let attestation_hash := keccak256 encrypted_attestation
    let proof_hash := keccak256 proof
    let is_valid := !(attestation_hash == 0) && !(proof_hash == 0)
        && !public_inputs.isEmpty
    let computed_value :=
      if is_valid && !public_inputs.isEmpty then public_inputs.headD 0 else 0
    (is_valid, computed_value)

/-- One unfolding of the `isqrt` loop of main.rs. -/
lemma isqrtAux_unfold (value x y : ℕ) :
    isqrtAux value x y =
      if y < x then isqrtAux value y ((y + value / y) / 2) else x := by
  rw [isqrtAux.eq_def]

lemma two_mul_le_sq_add_one (s : ℕ) : 2 * s ≤ s * s + 1 := by
  zify
  nlinarith [sq_nonneg ((s : ℤ) - 1)]

lemma four_mul_le_add_sq (a b : ℕ) : 4 * (a * b) ≤ (a + b) * (a + b) := by
  zify
  nlinarith [sq_nonneg ((a : ℤ) - b)]

/-- One Newton step from any positive `y` lands at or above `⌊√value⌋`. -/
lemma sqrt_le_newton_step (value y : ℕ) (hy : 1 ≤ y) :
    Nat.sqrt value ≤ (y + value / y) / 2 := by
  rw [Nat.le_div_iff_mul_le (by norm_num : 0 < 2)]
  by_contra hlt
  push_neg at hlt
  set q := value / y with hq
  have hv1 : value < y * (q + 1) := by
    have h1 := Nat.div_add_mod value y
    have h2 : value % y < y := Nat.mod_lt _ hy
    rw [← hq] at h1
    rw [Nat.mul_add, Nat.mul_one]
    linarith
  have hsle : Nat.sqrt value * Nat.sqrt value ≤ value := Nat.sqrt_le value
  have hsum : y + (q + 1) ≤ 2 * Nat.sqrt value := by omega
  have h5 : (y + (q + 1)) * (y + (q + 1)) ≤
      (2 * Nat.sqrt value) * (2 * Nat.sqrt value) := Nat.mul_le_mul hsum hsum
  have h6 : (2 * Nat.sqrt value) * (2 * Nat.sqrt value) =
      4 * (Nat.sqrt value * Nat.sqrt value) := by ring
  have h7 : y * (q + 1) ≤ Nat.sqrt value * Nat.sqrt value := by
    have h8 := le_trans (four_mul_le_add_sq y (q + 1)) (le_trans h5 (le_of_eq h6))
    linarith
  linarith

/-- A `y ≥ 1` that a Newton step does not decrease lies at or below
`⌊√value⌋`. -/
lemma le_sqrt_of_newton_fix (value y : ℕ) (hy : 1 ≤ y)
    (h : y ≤ (y + value / y) / 2) : y ≤ Nat.sqrt value := by
  rw [Nat.le_div_iff_mul_le (by norm_num : 0 < 2)] at h
  have h1 : y ≤ value / y := by linarith
  have h2 : y * y ≤ value :=
    le_trans (mul_le_mul_right' h1 y) (Nat.div_mul_le_self value y)
  exact Nat.le_sqrt.mpr h2

/-- The initial guess `(value + 1) / 2` of the loop lies at or above
`⌊√value⌋`. -/
lemma sqrt_le_half_succ (value : ℕ) : Nat.sqrt value ≤ (value + 1) / 2 := by
  rw [Nat.le_div_iff_mul_le (by norm_num : 0 < 2)]
  have h1 := Nat.sqrt_le value
  have h2 := two_mul_le_sq_add_one (Nat.sqrt value)
  linarith

/-- The loop invariant: started at any `x ≥ ⌊√value⌋` with
`y` one Newton step from `x`, the loop returns exactly `⌊√value⌋`. -/
lemma isqrtAux_eq_sqrt (value : ℕ) (hv : 1 ≤ value) :
    ∀ x y, Nat.sqrt value ≤ x → 1 ≤ x → y = (x + value / x) / 2 →
      isqrtAux value x y = Nat.sqrt value := by
  intro x
  induction x using Nat.strong_induction_on with
  | _ x ih =>
    intro y hsx hx1 hy
    rw [isqrtAux_unfold]
    by_cases hlt : y < x
    · rw [if_pos hlt]
      have hsy : Nat.sqrt value ≤ y := by
        rw [hy]; exact sqrt_le_newton_step value x hx1
      have hy1 : 1 ≤ y := le_trans (Nat.sqrt_pos.mpr hv) hsy
      exact ih y hlt ((y + value / y) / 2) hsy hy1 rfl
    · rw [if_neg hlt]
      push_neg at hlt
      exact le_antisymm (le_sqrt_of_newton_fix value x hx1 (hy ▸ hlt)) hsx

/-- The `isqrt` of main.rs computes `Nat.sqrt`, the floor square root. -/
lemma isqrt_eq_sqrt (value : ℕ) : isqrt value = Nat.sqrt value := by
  by_cases h : value = 0
  · simp [isqrt, h]
  · have hv : 1 ≤ value := Nat.one_le_iff_ne_zero.mpr h
    have hvv : value / value = 1 := Nat.div_self hv
    have heq := isqrtAux_eq_sqrt value hv value ((value + 1) / 2)
      (Nat.sqrt_le_self value) hv (by rw [hvv])
    simp [isqrt, h, heq]

/-- The instrumented loop succeeds (without dividing by zero) on any budget
exceeding `x - ⌊√value⌋`, and agrees with the uninstrumented loop. -/
lemma isqrtLoopFuel_eq (value : ℕ) (hv : 1 ≤ value) :
    ∀ fuel x y, x < fuel + Nat.sqrt value → Nat.sqrt value ≤ y →
      Nat.sqrt value ≤ x →
      isqrtLoopFuel value fuel x y = some (isqrtAux value x y) := by
  intro fuel
  induction fuel with
  | zero =>
    intro x y hfx hsy hsx
    exfalso
    omega
  | succ n ih =>
    intro x y hfx hsy hsx
    have hs1 : 1 ≤ Nat.sqrt value := Nat.sqrt_pos.mpr hv
    simp only [isqrtLoopFuel]
    rw [isqrtAux_unfold]
    by_cases hlt : y < x
    · have hy0 : ¬ y = 0 := by omega
      rw [if_pos hlt, if_neg hy0, if_pos hlt]
      exact ih y ((y + value / y) / 2) (by omega)
        (sqrt_le_newton_step value y (by omega)) hsy
    · rw [if_neg hlt, if_neg hlt]

end ServerImpl

namespace SimpleMain

namespace ConfidentialInsuranceCompute

/-- One unfolding of the `isqrt` loop of simple_main.rs. -/
lemma isqrtAux_unfold_u256 (value x y : U256) :
    isqrtAux value x y =
      if y.lt x then isqrtAux value y ((y.add (value.div y)).div (U256.of 2))
      else x := by
  rw [isqrtAux.eq_def]

end ConfidentialInsuranceCompute

end SimpleMain

open SimpleMain in
/-- Claim C1: for every pair of UInt256 values, addition/multiplication whose
mathematical result exceeds the 256-bit range must fail with
`ArithmeticOverflow` rather than wrap or truncate, and `(a + b) - b = a`
whenever `a + b` is in range.  The code violates this: `impl Add`/`impl Mul`
for `U256` in simple_main.rs operate on the low 64-bit limb only and zero the
upper limbs, so at `a = 2^64, b = 1` (sum well inside the 256-bit range, no
64-bit limb overflow anywhere) the sum silently truncates to `1`, making
`(a + b) - b = 0 ≠ a`, and `2^64 * 2` truncates to `0`; no error is even
possible since the operators are total on `U256`. -/
theorem claim_C1_add_mul_truncate_in_range :
    U256.toNat ⟨0, 1, 0, 0⟩ + U256.toNat (U256.of 1) < 2 ^ 256 ∧
    U256.toNat (U256.add ⟨0, 1, 0, 0⟩ (U256.of 1)) = 1 ∧
    U256.toNat (U256.sub (U256.add ⟨0, 1, 0, 0⟩ (U256.of 1)) (U256.of 1)) ≠
      U256.toNat ⟨0, 1, 0, 0⟩ ∧
    U256.toNat ⟨0, 1, 0, 0⟩ * U256.toNat (U256.of 2) < 2 ^ 256 ∧
    U256.toNat (U256.mul ⟨0, 1, 0, 0⟩ (U256.of 2)) = 0 := by
  refine ⟨by decide, ?_, by decide, by decide, ?_⟩
  · simp [U256.add, U256.sub, U256.of, U256.toNat, W64]
  · simp [U256.mul, U256.of, U256.toNat, W64]

open SimpleMain in
/-- Claim C2: dividing by a zero divisor must fail with `DivisionByZero`, not
return a default value.  The code violates this: `impl Div for U256` in
simple_main.rs explicitly returns `U256::ZERO` when the divisor is zero, as
evaluated here at `5 / 0`. -/
theorem claim_C2_div_by_zero_yields_default :
    U256.div (U256.of 5) U256.ZERO = U256.ZERO ∧ U256.of 5 ≠ U256.ZERO := by
  constructor
  · rfl
  · decide

open SimpleMain in
/-- Claim C3: `isqrt(n)` should be the floor square root of `n` for every
UInt256 value `n`.  The code violates this at `n = 2^64` (the word
`U256([0,1,0,0])`): since all `U256` arithmetic in simple_main.rs uses only
the low limb, the initial guess `(n+1)/2` evaluates to `0`, the loop exits
at once and `ConfidentialInsuranceCompute::isqrt` returns `2^64` itself,
whose square exceeds `n` (the floor root is `2^32`). -/
theorem claim_C3_isqrt_wrong_above_u64 :
    ConfidentialInsuranceCompute.isqrt ⟨0, 1, 0, 0⟩ = ⟨0, 1, 0, 0⟩ ∧
    ¬ U256.toNat (ConfidentialInsuranceCompute.isqrt ⟨0, 1, 0, 0⟩) *
        U256.toNat (ConfidentialInsuranceCompute.isqrt ⟨0, 1, 0, 0⟩) ≤
      U256.toNat (⟨0, 1, 0, 0⟩ : U256) := by
  have heval : ConfidentialInsuranceCompute.isqrt ⟨0, 1, 0, 0⟩ =
      ⟨0, 1, 0, 0⟩ := by
    rw [ConfidentialInsuranceCompute.isqrt]
    rw [if_neg (by decide)]
    rw [ConfidentialInsuranceCompute.isqrtAux_unfold_u256]
    rw [if_neg (by simp [U256.lt, U256.add, U256.div, U256.of, U256.is_zero, W64])]
  refine ⟨heval, ?_⟩
  rw [heval]
  decide

/-- Claim C4: for every input `value`, `isqrt` terminates: zero returns
immediately, and for nonzero `value` the Newton loop started at
`x₀ = value`, `y₀ = (value+1)/2` reaches `y ≥ x` within finitely many steps
(a budget of `value` iterations suffices) and never divides by zero: the
instrumented loop `isqrtLoopFuel`, which fails on budget exhaustion or on a
zero divisor, completes with the loop's result. -/
theorem claim_C4_isqrt_loop_terminates (value : ℕ) :
    ServerImpl.isqrt 0 = 0 ∧
    (value ≠ 0 →
      ServerImpl.isqrtLoopFuel value value value ((value + 1) / 2) =
        some (ServerImpl.isqrt value)) := by
  constructor
  · simp [ServerImpl.isqrt]
  · intro h
    have hv : 1 ≤ value := Nat.one_le_iff_ne_zero.mpr h
    have hs1 : 1 ≤ Nat.sqrt value := Nat.sqrt_pos.mpr hv
    rw [ServerImpl.isqrtLoopFuel_eq value hv value value ((value + 1) / 2)
      (by omega) (ServerImpl.sqrt_le_half_succ value) (Nat.sqrt_le_self value)]
    simp [ServerImpl.isqrt, h]

/-- Witness for C4 at the concrete input `value = 10`. -/
theorem claim_C4_isqrt_loop_terminates_witness :
    ServerImpl.isqrtLoopFuel 10 10 10 ((10 + 1) / 2) =
      some (ServerImpl.isqrt 10) :=
  (claim_C4_isqrt_loop_terminates 10).2 (by decide)

namespace ServerImpl

/-- The aggregation loop, started from `(s, c)`, adds the sum of the valid
entries' values to `s` and their count to `c`, where an entry is valid
exactly when its value is nonzero and its signature and key are non-empty. -/
lemma aggScan_eq (l : List (ℕ × Bytes × Bytes)) :
    ∀ s c, aggScan (s, c) l =
      (s + ((l.filter
          (fun e => !(e.1 == 0) && !e.2.1.isEmpty && !e.2.2.isEmpty)).map
            Prod.fst).sum,
       c + (l.filter
          (fun e => !(e.1 == 0) && !e.2.1.isEmpty && !e.2.2.isEmpty)).length) := by
  induction l with
  | nil => intro s c; simp [aggScan]
  | cons e rest ih =>
    intro s c
    obtain ⟨attestation, signature, key⟩ := e
    cases hb : !(attestation == 0) && !signature.isEmpty && !key.isEmpty with
    | false =>
      simp [aggScan, hb, List.filter_cons, ih]
    | true =>
      simp [aggScan, hb, List.filter_cons, ih, Prod.mk.injEq]
      omega

end ServerImpl

/-- Claim C7: the payout is `0` whenever `impermanent_loss ≤ deductible`;
otherwise it is `min((impermanent_loss - deductible) * coverage_ratio /
10000, coverage_amount)`.  Consequently the payout never exceeds
`coverage_amount`, `policy_id` never affects the result, and the concrete
case (loss 500, deductible 100, ratio 8000 bp, cap 200) pays exactly 200. -/
theorem claim_C7_payout_deductible_and_cap (policy_id impermanent_loss
    coverage_amount deductible coverage_ratio : ℕ) :
    (impermanent_loss ≤ deductible →
      ServerImpl.calculate_payout policy_id impermanent_loss coverage_amount
        deductible coverage_ratio = 0) ∧
    (deductible < impermanent_loss →
      ServerImpl.calculate_payout policy_id impermanent_loss coverage_amount
        deductible coverage_ratio =
        min ((impermanent_loss - deductible) * coverage_ratio / 10000)
          coverage_amount) ∧
    ServerImpl.calculate_payout policy_id impermanent_loss coverage_amount
      deductible coverage_ratio ≤ coverage_amount ∧
    (∀ other_id, ServerImpl.calculate_payout other_id impermanent_loss
        coverage_amount deductible coverage_ratio =
      ServerImpl.calculate_payout policy_id impermanent_loss coverage_amount
        deductible coverage_ratio) ∧
    ServerImpl.calculate_payout 7 500 200 100 8000 = 200 := by
  refine ⟨?_, ?_, ?_, fun _ => rfl, by decide⟩
  · intro h
    simp [ServerImpl.calculate_payout, h]
  · intro h
    rw [ServerImpl.calculate_payout, if_neg (by omega)]
    dsimp only
    split
    next h2 => exact (Nat.min_eq_right h2.le).symm
    next h2 => exact (Nat.min_eq_left (not_lt.mp h2)).symm
  · rw [ServerImpl.calculate_payout]
    split
    · exact Nat.zero_le _
    · dsimp only
      split
      next => exact le_refl _
      next h2 => exact not_lt.mp h2

/-- Witness for C7 at the concrete input of the specification's second
payout example. -/
theorem claim_C7_payout_deductible_and_cap_witness :
    ServerImpl.calculate_payout 7 500 200 100 8000 =
      min ((500 - 100) * 8000 / 10000) 200 :=
  (claim_C7_payout_deductible_and_cap 7 500 200 100 8000).2.1 (by decide)

/-- Claim C8: `aggregate_attestations` returns `(0, false)` when the three
sequences differ in length or the submission count is below `threshold`;
otherwise an entry counts as valid exactly when its value is nonzero and its
signature and operator key are non-empty, `quorum_met` is
`threshold ≤ number of valid entries`, and the aggregated value is the
integer-truncated mean of the valid values when quorum is met and `0` when
not; `[10, 20, 30]` (all valid) yields `(20, true)` at threshold 2 and
`(0, false)` at threshold 4. -/
theorem claim_C8_aggregate_quorum_mean (attestations : List ℕ)
    (signatures operator_public_keys : List ServerImpl.Bytes)
    (threshold : ℕ) :
    ((attestations.length ≠ signatures.length ∨
        signatures.length ≠ operator_public_keys.length ∨
        attestations.length < threshold) →
      ServerImpl.aggregate_attestations attestations signatures
        operator_public_keys threshold = (0, false)) ∧
    (attestations.length = signatures.length →
      signatures.length = operator_public_keys.length →
      threshold ≤ attestations.length →
      ServerImpl.aggregate_attestations attestations signatures
          operator_public_keys threshold =
        ((if threshold ≤
              ((attestations.zip (signatures.zip operator_public_keys)).filter
                (fun e => !(e.1 == 0) && !e.2.1.isEmpty && !e.2.2.isEmpty)).length
            then
              (((attestations.zip (signatures.zip operator_public_keys)).filter
                (fun e => !(e.1 == 0) && !e.2.1.isEmpty && !e.2.2.isEmpty)).map
                  Prod.fst).sum /
              ((attestations.zip (signatures.zip operator_public_keys)).filter
                (fun e => !(e.1 == 0) && !e.2.1.isEmpty && !e.2.2.isEmpty)).length
            else 0,
          decide (threshold ≤
            ((attestations.zip (signatures.zip operator_public_keys)).filter
              (fun e => !(e.1 == 0) && !e.2.1.isEmpty && !e.2.2.isEmpty)).length)))) ∧
    ServerImpl.aggregate_attestations [10, 20, 30] [[1], [1], [1]]
      [[2], [2], [2]] 2 = (20, true) ∧
    ServerImpl.aggregate_attestations [10, 20, 30] [[1], [1], [1]]
      [[2], [2], [2]] 4 = (0, false) := by
  refine ⟨?_, ?_, by decide, by decide⟩
  · intro h
    unfold ServerImpl.aggregate_attestations
    rcases h with h | h | h
    · rw [if_pos (by simp [h])]
    · rw [if_pos (by simp [h])]
    · by_cases hlen : (attestations.length ≠ signatures.length
          || signatures.length ≠ operator_public_keys.length) = true
      · rw [if_pos hlen]
      · rw [if_neg hlen, if_pos (by simpa using h)]
  · intro h1 h2 h3
    unfold ServerImpl.aggregate_attestations
    rw [if_neg (by simp [h1, h2]), if_neg (by simp; omega)]
    dsimp only
    rw [ServerImpl.aggScan_eq]
    simp only [Nat.zero_add]
    set cnt := ((attestations.zip (signatures.zip operator_public_keys)).filter
      (fun e => !(e.1 == 0) && !e.2.1.isEmpty && !e.2.2.isEmpty)).length with hcnt
    by_cases hq : threshold ≤ cnt
    · rcases Nat.eq_zero_or_pos cnt with hc | hc
      · simp [hq, hc, Nat.div_zero]
      · simp [hq, hc]
    · simp [hq]

/-- Witness for C8 at the concrete all-valid input of the specification's
aggregator example. -/
theorem claim_C8_aggregate_quorum_mean_witness :
    ServerImpl.aggregate_attestations [10, 20, 30] [[1], [1], [1]]
      [[2], [2], [2]] 2 =
      ((if 2 ≤
            (([10, 20, 30].zip ([[1], [1], [1]].zip [[2], [2], [2]])).filter
              (fun e => !(e.1 == 0) && !e.2.1.isEmpty && !e.2.2.isEmpty)).length
          then
            ((([10, 20, 30].zip ([[1], [1], [1]].zip [[2], [2], [2]])).filter
              (fun e => !(e.1 == 0) && !e.2.1.isEmpty && !e.2.2.isEmpty)).map
                Prod.fst).sum /
            (([10, 20, 30].zip ([[1], [1], [1]].zip [[2], [2], [2]])).filter
              (fun e => !(e.1 == 0) && !e.2.1.isEmpty && !e.2.2.isEmpty)).length
          else 0,
        decide (2 ≤
          (([10, 20, 30].zip ([[1], [1], [1]].zip [[2], [2], [2]])).filter
            (fun e => !(e.1 == 0) && !e.2.1.isEmpty && !e.2.2.isEmpty)).length))) :=
  (claim_C8_aggregate_quorum_mean [10, 20, 30] [[1], [1], [1]]
    [[2], [2], [2]] 2).2.1 (by decide) (by decide) (by decide)

/-- Claim C9: `verify_encrypted_attestation` returns `(false, 0)` whenever
the encrypted attestation or the proof is empty; when both are non-empty,
the (delegated) verification accepts — in the code's stand-in, both digests
are nonzero — and `public_inputs` is non-empty, it returns `true` together
with the first public input. -/
theorem claim_C9_verify_fail_closed_and_extract
    (keccak256 : ServerImpl.Bytes → ℕ)
    (encrypted_attestation proof : ServerImpl.Bytes)
    (public_inputs : List ℕ) :
    ((encrypted_attestation = [] ∨ proof = []) →
      ServerImpl.verify_encrypted_attestation keccak256 encrypted_attestation
        proof public_inputs = (false, 0)) ∧
    (encrypted_attestation ≠ [] → proof ≠ [] →
      keccak256 encrypted_attestation ≠ 0 → keccak256 proof ≠ 0 →
      public_inputs ≠ [] →
      ServerImpl.verify_encrypted_attestation keccak256 encrypted_attestation
        proof public_inputs = (true, public_inputs.headD 0)) := by
  constructor
  · intro h
    rcases h with h | h <;>
      simp [ServerImpl.verify_encrypted_attestation, h]
  · intro h1 h2 h3 h4 h5
    simp [ServerImpl.verify_encrypted_attestation, h1, h2, h3, h4, h5,
      List.isEmpty_iff]

/-- Witness for C9: a non-empty attestation and proof under a hash that
never returns zero, with first public input 42. -/
theorem claim_C9_verify_fail_closed_and_extract_witness :
    ServerImpl.verify_encrypted_attestation (fun _ => 1) [1] [2] [42] =
      (true, 42) :=
  (claim_C9_verify_fail_closed_and_extract (fun _ => 1) [1] [2] [42]).2
    (by decide) (by decide) (by decide) (by decide) (by decide)

namespace ServerImpl

/-- The absolute-difference form of the code's two-branch deviation
computation. -/
lemma deviation_eq_absdiff (prev curr : ℕ) :
    (if prev < curr then (curr - prev) * 10000 / prev
     else (prev - curr) * 10000 / prev) =
      (max prev curr - min prev curr) * 10000 / prev := by
  rcases le_or_lt curr prev with hle | hlt
  · rw [if_neg (not_lt.mpr hle), Nat.max_eq_left hle, Nat.min_eq_right hle]
  · rw [if_pos hlt, Nat.max_eq_right hlt.le, Nat.min_eq_left hlt.le]

/-- The deviation scan, started at `prev`, returns the conjunction of the
per-adjacent-pair checks (previous price nonzero and deviation within the
threshold) as its flag, and exactly the second components of the passing
pairs as its accepted list. -/
lemma priceScan_eq (deviation_threshold : ℕ) :
    ∀ rest prev, priceScan deviation_threshold prev rest =
      (((prev :: rest).zip rest).all
        (fun q => !(q.1 == 0) &&
          decide ((max q.1 q.2 - min q.1 q.2) * 10000 / q.1 ≤
            deviation_threshold)),
       ((prev :: rest).zip rest).filterMap
        (fun q => if q.1 ≠ 0 ∧
              (max q.1 q.2 - min q.1 q.2) * 10000 / q.1 ≤ deviation_threshold
            then some q.2 else none)) := by
  intro rest
  induction rest with
  | nil => intro prev; simp [priceScan]
  | cons curr rest ih =>
    intro prev
    by_cases h0 : prev = 0
    · subst h0
      simp [priceScan, ih, List.zip_cons_cons, List.all_cons,
        List.filterMap_cons]
    · have hb : (prev == 0) = false := by simp [h0]
      by_cases hq : (max prev curr - min prev curr) * 10000 / prev ≤
          deviation_threshold
      · simp only [priceScan, hb, Bool.false_eq_true, if_false, ih,
          List.zip_cons_cons, List.all_cons, List.filterMap_cons,
          deviation_eq_absdiff]
        rw [if_neg (not_lt.mpr hq), if_pos ⟨h0, hq⟩]
        simp [hb, hq]
      · simp only [priceScan, hb, Bool.false_eq_true, if_false, ih,
          List.zip_cons_cons, List.all_cons, List.filterMap_cons,
          deviation_eq_absdiff]
        rw [if_pos (not_le.mp hq), if_neg (by tauto)]
        simp [hb, hq]

/-- The timestamp loop computes exactly the strict chain condition. -/
lemma timestampsOk_eq_chain :
    ∀ l : List ℕ, timestampsOk l = decide (List.Chain' (· < ·) l)
  | [] => by simp [timestampsOk]
  | [a] => by simp [timestampsOk]
  | a :: b :: rest => by
    by_cases h : b ≤ a
    · simp [timestampsOk, h, List.chain'_cons, not_lt.mpr h]
    · have ht := timestampsOk_eq_chain (b :: rest)
      simp [timestampsOk, h, List.chain'_cons, ht, not_le.mp h]

end ServerImpl

/-- Claim C5: `validate_oracle_prices` returns `(false, [])` on length
mismatch or empty input; otherwise each price `p[i]` (`i ≥ 1`) is accepted
exactly when `p[i-1]` is nonzero and `|p[i] - p[i-1]| * 10000 / p[i-1]` is
within the threshold, the overall flag is the conjunction of all per-pair
checks with the strict increase of the timestamps (a deviation violation
marks the result invalid without stopping the scan), and the accepted list
reflects the per-pair outcomes even when the overall flag is false. -/
theorem claim_C5_validate_oracle_prices (price_data timestamps : List ℕ)
    (deviation_threshold : ℕ) :
    ((price_data.length ≠ timestamps.length ∨ price_data = []) →
      ServerImpl.validate_oracle_prices price_data timestamps
        deviation_threshold = (false, [])) ∧
    (price_data.length = timestamps.length → price_data ≠ [] →
      ServerImpl.validate_oracle_prices price_data timestamps
          deviation_threshold =
        ((price_data.zip price_data.tail).all
            (fun q => !(q.1 == 0) &&
              decide ((max q.1 q.2 - min q.1 q.2) * 10000 / q.1 ≤
                deviation_threshold)) &&
          decide (List.Chain' (· < ·) timestamps),
         (price_data.zip price_data.tail).filterMap
            (fun q => if q.1 ≠ 0 ∧
                  (max q.1 q.2 - min q.1 q.2) * 10000 / q.1 ≤
                    deviation_threshold
                then some q.2 else none))) := by
  constructor
  · intro h
    unfold ServerImpl.validate_oracle_prices
    rcases h with h | h
    · rw [if_pos (by simp [h])]
    · rw [if_pos (by simp [h])]
  · intro h1 h2
    obtain ⟨p, rest, rfl⟩ := List.exists_cons_of_ne_nil h2
    unfold ServerImpl.validate_oracle_prices
    rw [if_neg (by simp [h1])]
    dsimp only
    rw [ServerImpl.priceScan_eq, ServerImpl.timestampsOk_eq_chain]
    rfl

/-- Witness for C5 at the concrete input of the specification's oracle
example: prices `[100, 105, 98]`, timestamps `[1, 2, 3]`, threshold
1000 bp, giving a valid series with accepted prices `[105, 98]`. -/
theorem claim_C5_validate_oracle_prices_witness :
    ServerImpl.validate_oracle_prices [100, 105, 98] [1, 2, 3] 1000 =
      (true, [105, 98]) := by
  rw [(claim_C5_validate_oracle_prices [100, 105, 98] [1, 2, 3] 1000).2
    (by decide) (by decide)]
  have hch : decide (List.Chain' (· < ·) [(1 : ℕ), 2, 3]) = true := by
    rw [decide_eq_true_eq]
    simp [List.chain'_cons]
  rw [hch]
  decide

namespace SimpleMain

/-- The code's guarded subtraction `if hold > total then hold - total else 0`
is exactly the (saturating) `U256.sub`. -/
lemma ite_lt_sub_eq_sub (hv tv : U256) :
    (if tv.lt hv then hv.sub tv else U256.ZERO) = hv.sub tv := by
  by_cases h : tv.lt hv
  · rw [if_pos h]
  · rw [if_neg h]
    have h0 : hv.l0 - tv.l0 = 0 := by
      simp only [U256.lt, decide_eq_true_eq] at h
      omega
    simp [U256.sub, U256.ZERO, h0]

namespace ConfidentialInsuranceCompute

/-- `isqrt(1) = 1` in the simple_main.rs arithmetic. -/
lemma isqrt_one : isqrt (U256.of 1) = U256.of 1 := by
  unfold isqrt
  rw [if_neg (by decide), isqrtAux_unfold_u256, if_neg (by decide)]

end ConfidentialInsuranceCompute

end SimpleMain

open SimpleMain SimpleMain.ConfidentialInsuranceCompute in
/-- Claim C6: `calculate_impermanent_loss` returns `(0, false)` whenever
either initial token price is zero; otherwise it returns
`hold_value - total_lp_value` under saturating subtraction (zero when the
LP position outperformed holding) with `has_loss = (impermanent_loss > 0)`;
and at amounts (1000, 2000), current prices (100, 50), initial prices
(110, 55), fee 30 bp, the result is `(0, false)`. -/
theorem claim_C6_impermanent_loss_saturating (initial_token_a_amount
    initial_token_b_amount current_token_a_price current_token_b_price
    initial_token_a_price initial_token_b_price pool_fee_rate : U256) :
    ((initial_token_a_price.is_zero || initial_token_b_price.is_zero) = true →
      calculate_impermanent_loss initial_token_a_amount
        initial_token_b_amount current_token_a_price current_token_b_price
        initial_token_a_price initial_token_b_price pool_fee_rate =
        (U256.ZERO, false)) ∧
    ((initial_token_a_price.is_zero || initial_token_b_price.is_zero) = false →
      (let price_ratio :=
        (current_token_a_price.mul initial_token_b_price).div
          (initial_token_a_price.mul current_token_b_price)
       let initial_value :=
        (initial_token_a_amount.mul initial_token_a_price).add
          (initial_token_b_amount.mul initial_token_b_price)
       let hold_value :=
        (initial_token_a_amount.mul current_token_a_price).add
          (initial_token_b_amount.mul current_token_b_price)
       let total_lp_value :=
        ((initial_value.mul
            (((U256.of 2).mul (isqrt price_ratio)).div
              ((U256.of 1).add price_ratio))).div (U256.of 1)).add
          ((initial_value.mul pool_fee_rate).div (U256.of 10000))
       calculate_impermanent_loss initial_token_a_amount
          initial_token_b_amount current_token_a_price current_token_b_price
          initial_token_a_price initial_token_b_price pool_fee_rate =
        (hold_value.sub total_lp_value,
         U256.ZERO.lt (hold_value.sub total_lp_value)))) ∧
    calculate_impermanent_loss (U256.of 1000) (U256.of 2000) (U256.of 100)
      (U256.of 50) (U256.of 110) (U256.of 55) (U256.of 30) =
      (U256.ZERO, false) := by
  refine ⟨?_, ?_, ?_⟩
  · intro h
    unfold calculate_impermanent_loss
    rw [if_pos h]
  · intro h
    unfold calculate_impermanent_loss
    rw [if_neg (by simp [h])]
    dsimp only
    rw [ite_lt_sub_eq_sub]
  · unfold calculate_impermanent_loss
    rw [if_neg (by decide)]
    dsimp only
    have hpr : ((U256.of 100).mul (U256.of 55)).div
        ((U256.of 110).mul (U256.of 50)) = U256.of 1 := by decide
    rw [hpr, isqrt_one]
    decide

open SimpleMain in
/-- Witness for C6: at a zero initial token-A price the calculator fails
closed to `(0, false)`. -/
theorem claim_C6_impermanent_loss_saturating_witness :
    SimpleMain.ConfidentialInsuranceCompute.calculate_impermanent_loss
      (U256.of 1) (U256.of 1) (U256.of 1) (U256.of 1) U256.ZERO (U256.of 1)
      (U256.of 1) = (U256.ZERO, false) :=
  (claim_C6_impermanent_loss_saturating (U256.of 1) (U256.of 1) (U256.of 1)
    (U256.of 1) U256.ZERO (U256.of 1) (U256.of 1)).1 (by decide)

namespace SimpleMain

/-- `U256::ZERO` is the embedding of `0`. -/
lemma ZERO_eq_of : U256.ZERO = U256.of 0 := rfl

/-- Low-limb addition agrees with exact addition below the 64-bit wrap. -/
lemma of_add {a b : ℕ} (h : a + b < 2 ^ 64) :
    (U256.of a).add (U256.of b) = U256.of (a + b) := by
  unfold U256.add U256.of W64
  congr 1
  exact Nat.mod_eq_of_lt h

/-- Low-limb multiplication agrees with exact multiplication below the
64-bit wrap. -/
lemma of_mul {a b : ℕ} (h : a * b < 2 ^ 64) :
    (U256.of a).mul (U256.of b) = U256.of (a * b) := by
  unfold U256.mul U256.of W64
  congr 1
  exact Nat.mod_eq_of_lt h

/-- Low-limb saturating subtraction is exactly `ℕ` subtraction. -/
lemma of_sub (a b : ℕ) : (U256.of a).sub (U256.of b) = U256.of (a - b) := rfl

/-- Low-limb guarded division is exactly `ℕ` division (both send a zero
divisor to zero). -/
lemma of_div (a b : ℕ) : (U256.of a).div (U256.of b) = U256.of (a / b) := by
  by_cases hb : b = 0
  · subst hb
    simp [U256.div, U256.of, U256.is_zero, U256.ZERO]
  · simp [U256.div, U256.of, U256.is_zero, hb]

lemma of_lt (a b : ℕ) : (U256.of a).lt (U256.of b) = decide (a < b) := rfl

lemma of_le (a b : ℕ) : (U256.of a).le (U256.of b) = decide (a ≤ b) := rfl

lemma of_as_u64 (a : ℕ) : (U256.of a).as_u64 = a := rfl

lemma of_is_zero (a : ℕ) : (U256.of a).is_zero = (a == 0) := by
  simp [U256.is_zero, U256.of]

end SimpleMain

open SimpleMain in
/-- Claim C10 fails as stated: the four operations of the two modules are
not extensionally equal.  At `policy_id = 1`, `impermanent_loss = 2^64`
(the word `U256([0,1,0,0])`), `coverage_amount = 2^70` (`U256([0,64,0,0])`),
`deductible = 0` and `coverage_ratio = 10000`, the exact-arithmetic
`calculate_payout` of main.rs pays `2^64`, while the simple_main.rs version
compares only the low limbs, concludes the loss does not exceed the
deductible, and pays `0`. -/
theorem claim_C10_not_extensionally_equal :
    ServerImpl.calculate_payout 1 (2 ^ 64) (2 ^ 70) 0 10000 = 2 ^ 64 ∧
    SimpleMain.ConfidentialInsuranceCompute.calculate_payout (U256.of 1)
      ⟨0, 1, 0, 0⟩ ⟨0, 64, 0, 0⟩ U256.ZERO (U256.of 10000) = U256.ZERO ∧
    U256.toNat ⟨0, 1, 0, 0⟩ = 2 ^ 64 ∧ U256.toNat ⟨0, 64, 0, 0⟩ = 2 ^ 70 ∧
    U256.toNat U256.ZERO = 0 ∧ (2 : ℕ) ^ 64 ≠ U256.toNat U256.ZERO := by
  refine ⟨by decide, ?_, by decide, by decide, by decide, by decide⟩
  rfl

namespace SimpleMain

/-- Below `2^32` the simple_main.rs `isqrt` loop mirrors the exact-arithmetic
loop of main.rs: no 64-bit wrap can occur. -/
lemma isqrtAux_of (value : ℕ) (hv : value < 2 ^ 32) :
    ∀ x y, y ≤ 2 ^ 32 →
      ConfidentialInsuranceCompute.isqrtAux (U256.of value) (U256.of x)
          (U256.of y) =
        U256.of (ServerImpl.isqrtAux value x y) := by
  intro x
  induction x using Nat.strong_induction_on with
  | _ x ih =>
    intro y hy
    rw [ConfidentialInsuranceCompute.isqrtAux_unfold_u256, ServerImpl.isqrtAux_unfold]
    by_cases hlt : y < x
    · rw [if_pos (by simpa [of_lt] using hlt), if_pos hlt]
      have hdiv : value / y ≤ value := Nat.div_le_self value y
      rw [of_div, of_add (by omega), of_div]
      exact ih y hlt ((y + value / y) / 2) (by omega)
    · rw [if_neg (by simpa [of_lt] using hlt), if_neg hlt]

/-- Below `2^32` the simple_main.rs `isqrt` agrees with the exact one. -/
lemma isqrt_of (value : ℕ) (hv : value < 2 ^ 32) :
    ConfidentialInsuranceCompute.isqrt (U256.of value) =
      U256.of (ServerImpl.isqrt value) := by
  by_cases h0 : value = 0
  · subst h0
    simp [ConfidentialInsuranceCompute.isqrt, ServerImpl.isqrt, U256.is_zero,
      U256.of, U256.ZERO]
  · unfold ConfidentialInsuranceCompute.isqrt ServerImpl.isqrt
    rw [if_neg (by simp [of_is_zero, h0]), if_neg h0]
    rw [of_add (by omega), of_div]
    exact isqrtAux_of value hv value ((value + 1) / 2) (by omega)

/-- Below `2^16` the simple_main.rs payout calculator agrees with the exact
one of main.rs. -/
lemma calculate_payout_equiv (policy_id impermanent_loss coverage_amount
    deductible coverage_ratio : ℕ) (h1 : impermanent_loss < 2 ^ 16)
    (h2 : coverage_ratio < 2 ^ 16) :
    ConfidentialInsuranceCompute.calculate_payout (U256.of policy_id)
        (U256.of impermanent_loss) (U256.of coverage_amount)
        (U256.of deductible) (U256.of coverage_ratio) =
      U256.of (ServerImpl.calculate_payout policy_id impermanent_loss
        coverage_amount deductible coverage_ratio) := by
  unfold ConfidentialInsuranceCompute.calculate_payout
    ServerImpl.calculate_payout
  by_cases hle : impermanent_loss ≤ deductible
  · rw [if_pos (by simpa [of_le] using hle), if_pos hle, ZERO_eq_of]
  · rw [if_neg (by simpa [of_le] using hle), if_neg hle]
    dsimp only
    have hmul : (impermanent_loss - deductible) * coverage_ratio < 2 ^ 64 := by
      have hs : impermanent_loss - deductible ≤ impermanent_loss :=
        Nat.sub_le _ _
      calc (impermanent_loss - deductible) * coverage_ratio
          ≤ impermanent_loss * coverage_ratio := Nat.mul_le_mul_right _ hs
        _ < 2 ^ 16 * 2 ^ 16 :=
            Nat.mul_lt_mul_of_lt_of_le h1 (Nat.le_of_lt h2) (by omega)
        _ ≤ 2 ^ 64 := by norm_num
    rw [of_sub, of_mul hmul, of_div]
    by_cases hcap : coverage_amount <
        (impermanent_loss - deductible) * coverage_ratio / 10000
    · rw [if_pos (by simpa [of_lt] using hcap), if_pos hcap]
    · rw [if_neg (by simpa [of_lt] using hcap), if_neg hcap]

end SimpleMain

namespace SimpleMain

/-- Below `2^16` per value (with headroom in the running sum) the
simple_main.rs aggregation loop mirrors the exact one. -/
lemma aggScan_equiv :
    ∀ (l : List (ℕ × ServerImpl.Bytes × ServerImpl.Bytes)) (s c : ℕ),
      (∀ e ∈ l, e.1 < 2 ^ 16) → s + 2 ^ 16 * l.length < 2 ^ 64 →
      ConfidentialInsuranceCompute.aggScan (U256.of s, c)
          (l.map (Prod.map U256.of id)) =
        (U256.of (ServerImpl.aggScan (s, c) l).1,
         (ServerImpl.aggScan (s, c) l).2) := by
  intro l
  induction l with
  | nil =>
    intro s c _ _
    simp [ConfidentialInsuranceCompute.aggScan, ServerImpl.aggScan]
  | cons e rest ih =>
    intro s c hval hbound
    obtain ⟨a, sig, key⟩ := e
    have ha : a < 2 ^ 16 := hval (a, sig, key) (List.mem_cons_self _ _)
    have hrest : ∀ e ∈ rest, e.1 < 2 ^ 16 :=
      fun e he => hval e (List.mem_cons_of_mem _ he)
    simp only [List.length_cons] at hbound
    simp only [List.map_cons, Prod.map, id]
    cases hcond : !(a == 0) && !sig.isEmpty && !key.isEmpty with
    | true =>
      simp only [ConfidentialInsuranceCompute.aggScan, ServerImpl.aggScan,
        of_is_zero, Bytes.is_empty, hcond, if_true]
      rw [of_add (by omega)]
      exact ih (s + a) (c + 1) hrest (by omega)
    | false =>
      simp only [ConfidentialInsuranceCompute.aggScan, ServerImpl.aggScan,
        of_is_zero, Bytes.is_empty, hcond, Bool.false_eq_true, if_false]
      exact ih s c hrest (by omega)

/-- Below `2^16` per value and list length, the simple_main.rs attestation
aggregator agrees with the exact one of main.rs. -/
lemma aggregate_attestations_equiv (attestations : List ℕ)
    (signatures operator_public_keys : List ServerImpl.Bytes) (threshold : ℕ)
    (hval : ∀ a ∈ attestations, a < 2 ^ 16)
    (hlen : attestations.length < 2 ^ 16) :
    ConfidentialInsuranceCompute.aggregate_attestations
        (attestations.map U256.of) signatures operator_public_keys
        (U256.of threshold) =
      (U256.of (ServerImpl.aggregate_attestations attestations signatures
          operator_public_keys threshold).1,
       (ServerImpl.aggregate_attestations attestations signatures
          operator_public_keys threshold).2) := by
  unfold ConfidentialInsuranceCompute.aggregate_attestations
    ServerImpl.aggregate_attestations
  simp only [List.length_map, of_as_u64]
  by_cases hl : (attestations.length ≠ signatures.length
      || signatures.length ≠ operator_public_keys.length) = true
  · rw [if_pos hl, if_pos hl, ZERO_eq_of]
  · rw [if_neg hl, if_neg hl]
    by_cases ht : attestations.length < threshold
    · rw [if_pos ht, if_pos ht, ZERO_eq_of]
    · rw [if_neg ht, if_neg ht]
      dsimp only
      have hzip : (attestations.map U256.of).zip
          (signatures.zip operator_public_keys) =
          (attestations.zip (signatures.zip operator_public_keys)).map
            (Prod.map U256.of id) := by
        rw [List.zip_map_left]
      have hzval : ∀ e ∈ attestations.zip
          (signatures.zip operator_public_keys), e.1 < 2 ^ 16 := by
        intro e he
        obtain ⟨a, b⟩ := e
        exact hval a (List.mem_zip he).1
      have hzlen : (attestations.zip
          (signatures.zip operator_public_keys)).length ≤
          attestations.length := by
        rw [List.length_zip]
        omega
      have hscan := aggScan_equiv
        (attestations.zip (signatures.zip operator_public_keys)) 0 0 hzval
        (by omega)
      rw [hzip]
      have h00 : (U256.ZERO, (0 : ℕ)) = (U256.of 0, (0 : ℕ)) := rfl
      rw [h00, hscan]
      dsimp only
      by_cases hq : (decide (threshold ≤ (ServerImpl.aggScan (0, 0)
          (attestations.zip (signatures.zip operator_public_keys))).2) &&
          decide (0 < (ServerImpl.aggScan (0, 0)
          (attestations.zip (signatures.zip operator_public_keys))).2)) = true
      · rw [if_pos hq, if_pos hq, of_div]
      · rw [if_neg hq, if_neg hq, ZERO_eq_of]

end SimpleMain

namespace SimpleMain

/-- Below `2^16` per price, the simple_main.rs deviation scan mirrors the
exact one of main.rs. -/
lemma priceScan_equiv (deviation_threshold : ℕ) :
    ∀ rest prev, prev < 2 ^ 16 → (∀ a ∈ rest, a < 2 ^ 16) →
      ConfidentialInsuranceCompute.priceScan (U256.of deviation_threshold)
          (U256.of prev) (rest.map U256.of) =
        ((ServerImpl.priceScan deviation_threshold prev rest).1,
         (ServerImpl.priceScan deviation_threshold prev rest).2.map
           U256.of) := by
  intro rest
  induction rest with
  | nil =>
    intro prev _ _
    simp [ConfidentialInsuranceCompute.priceScan, ServerImpl.priceScan]
  | cons curr rest ih =>
    intro prev hprev hrest
    have hcurr : curr < 2 ^ 16 := hrest curr (List.mem_cons_self _ _)
    have hrest2 : ∀ a ∈ rest, a < 2 ^ 16 :=
      fun a ha => hrest a (List.mem_cons_of_mem _ ha)
    have ihc := ih curr hcurr hrest2
    simp only [List.map_cons]
    simp only [ConfidentialInsuranceCompute.priceScan, ServerImpl.priceScan,
      of_is_zero]
    by_cases h0 : prev = 0
    · rw [if_pos (show ((prev == 0) : Bool) = true by simp [h0]),
        if_pos (show ((prev == 0) : Bool) = true by simp [h0])]
      simp [ihc]
    · rw [if_neg (show ¬ ((prev == 0) : Bool) = true by simp [h0]),
        if_neg (show ¬ ((prev == 0) : Bool) = true by simp [h0])]
    -- the two deviation branches collapse to one embedded deviation value
      have hm1 : (curr - prev) * 10000 < 2 ^ 64 := by
        have hs := Nat.sub_le curr prev
        omega
      have hm2 : (prev - curr) * 10000 < 2 ^ 64 := by
        have hs := Nat.sub_le prev curr
        omega
      have hdev : (if (U256.of prev).lt (U256.of curr) = true then
            (((U256.of curr).sub (U256.of prev)).mul (U256.of 10000)).div
              (U256.of prev)
          else
            (((U256.of prev).sub (U256.of curr)).mul (U256.of 10000)).div
              (U256.of prev)) =
          U256.of (if prev < curr then (curr - prev) * 10000 / prev
            else (prev - curr) * 10000 / prev) := by
        by_cases hpc : prev < curr
        · rw [if_pos (by simpa [of_lt] using hpc), if_pos hpc, of_sub,
            of_mul hm1, of_div]
        · rw [if_neg (by simpa [of_lt] using hpc), if_neg hpc, of_sub,
            of_mul hm2, of_div]
      rw [hdev]
      by_cases hd : deviation_threshold <
          (if prev < curr then (curr - prev) * 10000 / prev
           else (prev - curr) * 10000 / prev)
      · rw [if_pos (by simpa [of_lt] using hd), if_pos hd]
        simp [ihc]
      · rw [if_neg (by simpa [of_lt] using hd), if_neg hd]
        simp [ihc]

/-- The simple_main.rs timestamp check mirrors the exact one of main.rs. -/
lemma timestampsOk_equiv :
    ∀ l : List ℕ, ConfidentialInsuranceCompute.timestampsOk (l.map U256.of) =
      ServerImpl.timestampsOk l
  | [] => by
    simp [ConfidentialInsuranceCompute.timestampsOk, ServerImpl.timestampsOk]
  | [a] => by
    simp [ConfidentialInsuranceCompute.timestampsOk, ServerImpl.timestampsOk]
  | a :: b :: rest => by
    have ht := timestampsOk_equiv (b :: rest)
    by_cases h : b ≤ a
    · simp [ConfidentialInsuranceCompute.timestampsOk,
        ServerImpl.timestampsOk, of_le, h]
    · simp only [List.map_cons] at ht ⊢
      simp [ConfidentialInsuranceCompute.timestampsOk,
        ServerImpl.timestampsOk, of_le, h, ht]

/-- Below `2^16` per price, the simple_main.rs oracle validator agrees with
the exact one of main.rs. -/
lemma validate_oracle_prices_equiv (price_data timestamps : List ℕ)
    (deviation_threshold : ℕ) (hp : ∀ a ∈ price_data, a < 2 ^ 16) :
    ConfidentialInsuranceCompute.validate_oracle_prices
        (price_data.map U256.of) (timestamps.map U256.of)
        (U256.of deviation_threshold) =
      ((ServerImpl.validate_oracle_prices price_data timestamps
          deviation_threshold).1,
       (ServerImpl.validate_oracle_prices price_data timestamps
          deviation_threshold).2.map U256.of) := by
  unfold ConfidentialInsuranceCompute.validate_oracle_prices
    ServerImpl.validate_oracle_prices
  rcases price_data with _ | ⟨p, rest⟩
  · simp
  · have hpp : p < 2 ^ 16 := hp p (List.mem_cons_self _ _)
    have hpr : ∀ a ∈ rest, a < 2 ^ 16 :=
      fun a ha => hp a (List.mem_cons_of_mem _ ha)
    simp only [List.map_cons, List.length_cons, List.length_map,
      List.isEmpty_cons, Bool.or_false]
    by_cases hc : rest.length + 1 ≠ timestamps.length
    · rw [if_pos (by simpa using hc), if_pos (by simpa using hc)]
      rfl
    · rw [if_neg (by simpa using hc), if_neg (by simpa using hc)]
      dsimp only
      rw [priceScan_equiv deviation_threshold rest p hpp hpr,
        timestampsOk_equiv timestamps]

end SimpleMain

namespace SimpleMain

lemma mul_lt_two_pow_32 {a b : ℕ} (ha : a < 2 ^ 16) (hb : b < 2 ^ 16) :
    a * b < 2 ^ 32 := by
  calc a * b < 2 ^ 16 * 2 ^ 16 :=
      Nat.mul_lt_mul_of_lt_of_le ha (Nat.le_of_lt hb) (by omega)
    _ ≤ 2 ^ 32 := by norm_num

/-- The integer LP multiplier `2·⌊√r⌋ / (1 + r)` never exceeds 1. -/
lemma lp_multiplier_le_one (pr : ℕ) : 2 * Nat.sqrt pr / (1 + pr) ≤ 1 := by
  have hs1 : Nat.sqrt pr * Nat.sqrt pr ≤ pr := Nat.sqrt_le pr
  have hs2 := ServerImpl.two_mul_le_sq_add_one (Nat.sqrt pr)
  have hlt : 2 * Nat.sqrt pr / (1 + pr) < 2 :=
    (Nat.div_lt_iff_lt_mul (by omega)).mpr (by linarith)
  omega

/-- Below `2^16` per input, the simple_main.rs impermanent-loss calculator
agrees with the exact one of main.rs. -/
lemma calculate_impermanent_loss_equiv (initial_token_a_amount
    initial_token_b_amount current_token_a_price current_token_b_price
    initial_token_a_price initial_token_b_price pool_fee_rate : ℕ)
    (h1 : initial_token_a_amount < 2 ^ 16)
    (h2 : initial_token_b_amount < 2 ^ 16)
    (h3 : current_token_a_price < 2 ^ 16)
    (h4 : current_token_b_price < 2 ^ 16)
    (h5 : initial_token_a_price < 2 ^ 16)
    (h6 : initial_token_b_price < 2 ^ 16)
    (h7 : pool_fee_rate < 2 ^ 16) :
    ConfidentialInsuranceCompute.calculate_impermanent_loss
        (U256.of initial_token_a_amount) (U256.of initial_token_b_amount)
        (U256.of current_token_a_price) (U256.of current_token_b_price)
        (U256.of initial_token_a_price) (U256.of initial_token_b_price)
        (U256.of pool_fee_rate) =
      (U256.of (ServerImpl.calculate_impermanent_loss initial_token_a_amount
          initial_token_b_amount current_token_a_price current_token_b_price
          initial_token_a_price initial_token_b_price pool_fee_rate).1,
       (ServerImpl.calculate_impermanent_loss initial_token_a_amount
          initial_token_b_amount current_token_a_price current_token_b_price
          initial_token_a_price initial_token_b_price pool_fee_rate).2) := by
  unfold ConfidentialInsuranceCompute.calculate_impermanent_loss
    ServerImpl.calculate_impermanent_loss
  by_cases hz : initial_token_a_price = 0 ∨ initial_token_b_price = 0
  · rw [if_pos (by rcases hz with hz | hz <;> simp [of_is_zero, hz]),
      if_pos (show ((initial_token_a_price == 0 : Bool) ||
        (initial_token_b_price == 0)) = true by
          rcases hz with hz | hz <;> simp [hz])]
    rfl
  · push_neg at hz
    obtain ⟨hz1, hz2⟩ := hz
    rw [if_neg (by simp [of_is_zero, hz1, hz2]),
      if_neg (show ¬ ((initial_token_a_price == 0 : Bool) ||
        (initial_token_b_price == 0)) = true by simp [hz1, hz2])]
    dsimp only
    have hm1 : current_token_a_price * initial_token_b_price < 2 ^ 64 :=
      lt_of_lt_of_le (mul_lt_two_pow_32 h3 h6) (by norm_num)
    have hm2 : initial_token_a_price * current_token_b_price < 2 ^ 64 :=
      lt_of_lt_of_le (mul_lt_two_pow_32 h5 h4) (by norm_num)
    rw [of_mul hm1, of_mul hm2]
    simp only [of_div]
    have hprb : current_token_a_price * initial_token_b_price /
        (initial_token_a_price * current_token_b_price) < 2 ^ 32 :=
      Nat.lt_of_le_of_lt (Nat.div_le_self _ _) (mul_lt_two_pow_32 h3 h6)
    have hm3 : initial_token_a_amount * initial_token_a_price < 2 ^ 64 :=
      lt_of_lt_of_le (mul_lt_two_pow_32 h1 h5) (by norm_num)
    have hm4 : initial_token_b_amount * initial_token_b_price < 2 ^ 64 :=
      lt_of_lt_of_le (mul_lt_two_pow_32 h2 h6) (by norm_num)
    have hadd1 : initial_token_a_amount * initial_token_a_price +
        initial_token_b_amount * initial_token_b_price < 2 ^ 64 := by
      have e1 := mul_lt_two_pow_32 h1 h5
      have e2 := mul_lt_two_pow_32 h2 h6
      omega
    have hm5 : initial_token_a_amount * current_token_a_price < 2 ^ 64 :=
      lt_of_lt_of_le (mul_lt_two_pow_32 h1 h3) (by norm_num)
    have hm6 : initial_token_b_amount * current_token_b_price < 2 ^ 64 :=
      lt_of_lt_of_le (mul_lt_two_pow_32 h2 h4) (by norm_num)
    have hadd2 : initial_token_a_amount * current_token_a_price +
        initial_token_b_amount * current_token_b_price < 2 ^ 64 := by
      have e1 := mul_lt_two_pow_32 h1 h3
      have e2 := mul_lt_two_pow_32 h2 h4
      omega
    rw [of_mul hm3, of_mul hm4, of_add hadd1, of_mul hm5, of_mul hm6,
      of_add hadd2, isqrt_of _ hprb, ServerImpl.isqrt_eq_sqrt]
    have hsqle := Nat.sqrt_le_self (current_token_a_price *
      initial_token_b_price / (initial_token_a_price * current_token_b_price))
    have hm7 : 2 * Nat.sqrt (current_token_a_price * initial_token_b_price /
        (initial_token_a_price * current_token_b_price)) < 2 ^ 64 := by
      omega
    have hadd3 : 1 + current_token_a_price * initial_token_b_price /
        (initial_token_a_price * current_token_b_price) < 2 ^ 64 := by
      omega
    rw [of_mul hm7, of_add hadd3]
    simp only [of_div]
    have hlpm := lp_multiplier_le_one (current_token_a_price *
      initial_token_b_price / (initial_token_a_price * current_token_b_price))
    have hiv : initial_token_a_amount * initial_token_a_price +
        initial_token_b_amount * initial_token_b_price < 2 ^ 33 := by
      have e1 := mul_lt_two_pow_32 h1 h5
      have e2 := mul_lt_two_pow_32 h2 h6
      omega
    have hm8 : (initial_token_a_amount * initial_token_a_price +
        initial_token_b_amount * initial_token_b_price) *
        (2 * Nat.sqrt (current_token_a_price * initial_token_b_price /
          (initial_token_a_price * current_token_b_price)) /
          (1 + current_token_a_price * initial_token_b_price /
            (initial_token_a_price * current_token_b_price))) < 2 ^ 64 := by
      calc (initial_token_a_amount * initial_token_a_price +
            initial_token_b_amount * initial_token_b_price) *
            (2 * Nat.sqrt (current_token_a_price * initial_token_b_price /
              (initial_token_a_price * current_token_b_price)) /
              (1 + current_token_a_price * initial_token_b_price /
                (initial_token_a_price * current_token_b_price)))
          ≤ (initial_token_a_amount * initial_token_a_price +
            initial_token_b_amount * initial_token_b_price) * 1 :=
            Nat.mul_le_mul_left _ hlpm
        _ = initial_token_a_amount * initial_token_a_price +
            initial_token_b_amount * initial_token_b_price := Nat.mul_one _
        _ < 2 ^ 64 := by omega
    have hm9 : (initial_token_a_amount * initial_token_a_price +
        initial_token_b_amount * initial_token_b_price) * pool_fee_rate <
        2 ^ 64 := by
      calc (initial_token_a_amount * initial_token_a_price +
            initial_token_b_amount * initial_token_b_price) * pool_fee_rate
          < 2 ^ 33 * 2 ^ 16 :=
            Nat.mul_lt_mul_of_lt_of_le hiv (Nat.le_of_lt h7) (by omega)
        _ ≤ 2 ^ 64 := by norm_num
    rw [of_mul hm8]
    simp only [of_div]
    rw [of_mul hm9]
    simp only [of_div]
    have hlp : (initial_token_a_amount * initial_token_a_price +
        initial_token_b_amount * initial_token_b_price) *
        (2 * Nat.sqrt (current_token_a_price * initial_token_b_price /
          (initial_token_a_price * current_token_b_price)) /
          (1 + current_token_a_price * initial_token_b_price /
            (initial_token_a_price * current_token_b_price))) / 1 ≤
        initial_token_a_amount * initial_token_a_price +
        initial_token_b_amount * initial_token_b_price := by
      rw [Nat.div_one]
      calc (initial_token_a_amount * initial_token_a_price +
            initial_token_b_amount * initial_token_b_price) *
            (2 * Nat.sqrt (current_token_a_price * initial_token_b_price /
              (initial_token_a_price * current_token_b_price)) /
              (1 + current_token_a_price * initial_token_b_price /
                (initial_token_a_price * current_token_b_price)))
          ≤ (initial_token_a_amount * initial_token_a_price +
            initial_token_b_amount * initial_token_b_price) * 1 :=
            Nat.mul_le_mul_left _ hlpm
        _ = _ := Nat.mul_one _
    have hfee : (initial_token_a_amount * initial_token_a_price +
        initial_token_b_amount * initial_token_b_price) * pool_fee_rate /
        10000 ≤ (initial_token_a_amount * initial_token_a_price +
        initial_token_b_amount * initial_token_b_price) * pool_fee_rate :=
      Nat.div_le_self _ _
    have hfee2 : (initial_token_a_amount * initial_token_a_price +
        initial_token_b_amount * initial_token_b_price) * pool_fee_rate <
        2 ^ 49 := by
      calc (initial_token_a_amount * initial_token_a_price +
            initial_token_b_amount * initial_token_b_price) * pool_fee_rate
          < 2 ^ 33 * 2 ^ 16 :=
            Nat.mul_lt_mul_of_lt_of_le hiv (Nat.le_of_lt h7) (by omega)
        _ ≤ 2 ^ 49 := by norm_num
    have hadd4 : (initial_token_a_amount * initial_token_a_price +
        initial_token_b_amount * initial_token_b_price) *
        (2 * Nat.sqrt (current_token_a_price * initial_token_b_price /
          (initial_token_a_price * current_token_b_price)) /
          (1 + current_token_a_price * initial_token_b_price /
            (initial_token_a_price * current_token_b_price))) / 1 +
        (initial_token_a_amount * initial_token_a_price +
        initial_token_b_amount * initial_token_b_price) * pool_fee_rate /
        10000 < 2 ^ 64 := by
      linarith
    rw [of_add hadd4]
    by_cases hfin : (initial_token_a_amount * initial_token_a_price +
        initial_token_b_amount * initial_token_b_price) *
        (2 * Nat.sqrt (current_token_a_price * initial_token_b_price /
          (initial_token_a_price * current_token_b_price)) /
          (1 + current_token_a_price * initial_token_b_price /
            (initial_token_a_price * current_token_b_price))) / 1 +
        (initial_token_a_amount * initial_token_a_price +
        initial_token_b_amount * initial_token_b_price) * pool_fee_rate /
        10000 < initial_token_a_amount * current_token_a_price +
        initial_token_b_amount * current_token_b_price
    · rw [if_pos (by simpa [of_lt] using hfin), if_pos hfin, of_sub]
      rfl
    · rw [if_neg (by simpa [of_lt] using hfin), if_neg hfin]
      rfl

end SimpleMain

open SimpleMain in
/-- Claim C10, amended: the four operations of main.rs
(`ServerImpl`, exact arithmetic) and simple_main.rs
(`ConfidentialInsuranceCompute`, low-64-bit-limb arithmetic) agree on
every input whose scalars are below `2^16` (attestation lists also shorter
than `2^16` entries), relating a natural number `n` to the word
`U256::from(n)`.  On larger inputs they differ (see the counterexample at
`2^64`). -/
theorem claim_C10_equiv_on_small_inputs :
    (∀ policy_id impermanent_loss coverage_amount deductible
        coverage_ratio : ℕ,
      impermanent_loss < 2 ^ 16 → coverage_ratio < 2 ^ 16 →
      SimpleMain.ConfidentialInsuranceCompute.calculate_payout
          (U256.of policy_id) (U256.of impermanent_loss)
          (U256.of coverage_amount) (U256.of deductible)
          (U256.of coverage_ratio) =
        U256.of (ServerImpl.calculate_payout policy_id impermanent_loss
          coverage_amount deductible coverage_ratio)) ∧
    (∀ initial_token_a_amount initial_token_b_amount current_token_a_price
        current_token_b_price initial_token_a_price initial_token_b_price
        pool_fee_rate : ℕ,
      initial_token_a_amount < 2 ^ 16 → initial_token_b_amount < 2 ^ 16 →
      current_token_a_price < 2 ^ 16 → current_token_b_price < 2 ^ 16 →
      initial_token_a_price < 2 ^ 16 → initial_token_b_price < 2 ^ 16 →
      pool_fee_rate < 2 ^ 16 →
      SimpleMain.ConfidentialInsuranceCompute.calculate_impermanent_loss
          (U256.of initial_token_a_amount) (U256.of initial_token_b_amount)
          (U256.of current_token_a_price) (U256.of current_token_b_price)
          (U256.of initial_token_a_price) (U256.of initial_token_b_price)
          (U256.of pool_fee_rate) =
        (U256.of (ServerImpl.calculate_impermanent_loss
            initial_token_a_amount initial_token_b_amount
            current_token_a_price current_token_b_price
            initial_token_a_price initial_token_b_price pool_fee_rate).1,
         (ServerImpl.calculate_impermanent_loss initial_token_a_amount
            initial_token_b_amount current_token_a_price
            current_token_b_price initial_token_a_price
            initial_token_b_price pool_fee_rate).2)) ∧
    (∀ (attestations : List ℕ)
        (signatures operator_public_keys : List ServerImpl.Bytes)
        (threshold : ℕ),
      (∀ a ∈ attestations, a < 2 ^ 16) → attestations.length < 2 ^ 16 →
      SimpleMain.ConfidentialInsuranceCompute.aggregate_attestations
          (attestations.map U256.of) signatures operator_public_keys
          (U256.of threshold) =
        (U256.of (ServerImpl.aggregate_attestations attestations signatures
            operator_public_keys threshold).1,
         (ServerImpl.aggregate_attestations attestations signatures
            operator_public_keys threshold).2)) ∧
    (∀ (price_data timestamps : List ℕ) (deviation_threshold : ℕ),
      (∀ a ∈ price_data, a < 2 ^ 16) →
      SimpleMain.ConfidentialInsuranceCompute.validate_oracle_prices
          (price_data.map U256.of) (timestamps.map U256.of)
          (U256.of deviation_threshold) =
        ((ServerImpl.validate_oracle_prices price_data timestamps
            deviation_threshold).1,
         (ServerImpl.validate_oracle_prices price_data timestamps
            deviation_threshold).2.map U256.of)) := by
  refine ⟨?_, ?_, ?_, ?_⟩
  · intro policy_id impermanent_loss coverage_amount deductible
      coverage_ratio hA hB
    exact SimpleMain.calculate_payout_equiv policy_id impermanent_loss
      coverage_amount deductible coverage_ratio hA hB
  · intro a b c d e f g hA hB hC hD hE hF hG
    exact SimpleMain.calculate_impermanent_loss_equiv a b c d e f g
      hA hB hC hD hE hF hG
  · intro attestations signatures operator_public_keys threshold hA hB
    exact SimpleMain.aggregate_attestations_equiv attestations signatures
      operator_public_keys threshold hA hB
  · intro price_data timestamps deviation_threshold hA
    exact SimpleMain.validate_oracle_prices_equiv price_data timestamps
      deviation_threshold hA

open SimpleMain in
/-- Witness for C10's amended equivalence at the payout example. -/
theorem claim_C10_equiv_on_small_inputs_witness :
    SimpleMain.ConfidentialInsuranceCompute.calculate_payout (U256.of 1)
      (U256.of 500) (U256.of 200) (U256.of 100) (U256.of 8000) =
      U256.of (ServerImpl.calculate_payout 1 500 200 100 8000) :=
  claim_C10_equiv_on_small_inputs.1 1 500 200 100 8000 (by decide) (by decide)
